import Mathlib

/-!
Verification of the filtering-and-aggregation pipeline of
`src/EDA_Streamlit_app.py` (a Streamlit EDA dashboard over a table of
volleyball-player statistics).

The dataframe is embedded as a `List Row`; the pandas operations the app
uses are embedded as list functions, in exact arithmetic (`ℚ` for the
numeric columns, `Int` for ages):
  * line 43-46  `filtered_df`  — boolean-mask filter (`isin` + `between`);
  * line 65     `position_counts` — `Series.value_counts`;
  * line 95     `position_skills` — `groupby('Position')[skills].mean().transpose()`;
  * line 134    `top_attack`   — `DataFrame.nlargest(n, 'Attack')`;
  * line 159    `corr`         — `DataFrame.corr()` (Pearson), NaN as `none`;
  * line 182-188 `country_stats` — `groupby('Country').agg(...)`, sort, threshold.
pandas' `nlargest` (keep='first') is a stable descending sort followed by
`head n`; `groupby` (sort=True) orders group keys ascendingly; `unique`
keeps first occurrences.  A Pearson entry sxy/√(sxx·syy) is represented by
the exact pair `(sxy, sxx*syy)` and read into `ℝ` by `pearsonVal`.
-/

namespace EDA

/-- One row of `VNL2023.csv`: columns Player, Country, Position, Age and the
six numeric skill columns (line 84: Attack, Block, Serve, Set, Dig, Receive). -/
structure Row where
  player : String
  country : String
  position : String
  age : Int
  attack : ℚ
  block : ℚ
  serve : ℚ
  set : ℚ
  dig : ℚ
  receive : ℚ
deriving DecidableEq

/-- The numeric columns the app selects by name (lines 84 and 150:
the six skills, plus Age for the correlation tab). -/
inductive Col where
  | attack
  | block
  | serve
  | set
  | dig
  | receive
  | age
deriving DecidableEq

/-- Column access by name, as `ℚ` (Age is an integer column, cast). -/
def Row.get (r : Row) : Col → ℚ
  | .attack => r.attack
  | .block => r.block
  | .serve => r.serve
  | .set => r.set
  | .dig => r.dig
  | .receive => r.receive
  | .age => (r.age : ℚ)

/-- Lines 43-46: `df[(df['Position'].isin(selected_positions)) &
(df['Age'].between(age_range[0], age_range[1]))]`.  `between` is inclusive
on both ends by default. -/
def filtered_df (df : List Row) (selected_positions : List String)
    (lo hi : Int) : List Row :=
  df.filter (fun r =>
    decide (r.position ∈ selected_positions ∧ lo ≤ r.age ∧ r.age ≤ hi))

/-- Helper for `unique`: drop every element already seen. -/
def uniqueAux [DecidableEq α] (seen : List α) : List α → List α
  | [] => []
  | a :: l => if a ∈ seen then uniqueAux seen l else a :: uniqueAux (a :: seen) l

/-- pandas `Series.unique` (lines 31-32): distinct values in order of first
appearance. -/
def unique [DecidableEq α] (l : List α) : List α :=
  uniqueAux [] l

/-- pandas `Series.min` on an integer column (line 37); the app never takes
the minimum of an empty column (the CSV is non-empty), 0 is a junk default. -/
def colMin : List Int → Int
  | [] => 0
  | a :: l => l.foldl min a

/-- pandas `Series.max` on an integer column (line 38). -/
def colMax : List Int → Int
  | [] => 0
  | a :: l => l.foldl max a

/-- Insert `x` into `l` in front of the first element `y` with `r x y`. -/
def insertOrd (r : α → α → Bool) (x : α) : List α → List α
  | [] => [x]
  | y :: ys => if r x y then x :: y :: ys else y :: insertOrd r x ys

/-- Stable insertion sort: an element comes before another iff `r` says it
may, ties (both directions of `r`) staying in original order. -/
def sortOrd (r : α → α → Bool) : List α → List α
  | [] => []
  | x :: xs => insertOrd r x (sortOrd r xs)

/-- Stable sort, largest key first (`sort_values(ascending=False)` with a
stable kind; also the order `nlargest` returns). -/
def sortDescBy [LinearOrder β] (key : α → β) (l : List α) : List α :=
  sortOrd (fun a b => decide (key b ≤ key a)) l

/-- Stable sort, smallest key first (the ascending key order `groupby`
uses for its groups). -/
def sortAscBy [LinearOrder β] (key : α → β) (l : List α) : List α :=
  sortOrd (fun a b => decide (key a ≤ key b)) l

/-- Arithmetic mean of a list of rationals (pandas `mean`); division by the
length, `0` on the empty list only because `x / 0 = 0` in `ℚ`. -/
def meanQ (l : List ℚ) : ℚ :=
  l.sum / l.length

/-- Line 134: `filtered_df.nlargest(top_n, 'Attack')`.  pandas documents
`nlargest(n, cols, keep='first')` as equivalent to
`sort_values(cols, ascending=False).head(n)` with first occurrences kept on
ties, and returns the empty frame when `n ≤ 0`; the trailing
`[['Player', 'Country', 'Attack', 'Position', 'Age']]` column projection is
display-only and keeps the rows unchanged. -/
def top_attack (view : List Row) (n : Int) : List Row :=
  (sortDescBy Row.attack view).take n.toNat

/-- Line 65: `filtered_df['Position'].value_counts()`: count per distinct
position, ordered by descending count. -/
def position_counts (view : List Row) : List (String × Nat) :=
  sortDescBy Prod.snd
    ((unique (view.map Row.position)).map
      (fun p => (p, (view.map Row.position).count p)))

/-- The group keys of `groupby(key)` with the default `sort=True`: the
distinct key values, in ascending order. -/
def groupsOf (key : Row → String) (view : List Row) : List String :=
  sortAscBy id (unique (view.map key))

/-- Line 95: `filtered_df.groupby('Position')[selected_skills].mean().transpose()`.
After the transpose the table's columns are the positions occurring in the
view (`.1`) and its rows are the selected skills, one mean per position
column (`.2`). -/
def position_skills (view : List Row) (selected_skills : List Col) :
    List String × List (Col × List ℚ) :=
  let ps := groupsOf Row.position view
  (ps, selected_skills.map (fun s =>
    (s, ps.map (fun p =>
      meanQ ((view.filter (fun r => decide (r.position = p))).map
        (fun r => r.get s))))))

/-- One row of the `country_stats` frame (lines 182-187): player count and
the means of Attack, Block and Age for one country. -/
structure CountryStat where
  country : String
  count : Nat
  meanAttack : ℚ
  meanBlock : ℚ
  meanAge : ℚ
deriving DecidableEq

/-- The aggregate row of one country:
`agg({'Player': 'count', 'Attack': 'mean', 'Block': 'mean', 'Age': 'mean'})`. -/
def statsFor (view : List Row) (c : String) : CountryStat :=
  let rows := view.filter (fun r => decide (r.country = c))
  ⟨c, rows.length,
    meanQ (rows.map Row.attack),
    meanQ (rows.map Row.block),
    meanQ (rows.map (fun r => (r.age : ℚ)))⟩

/-- Lines 182-188: group by Country, aggregate count/means, sort by player
count descending (`sort_values('Player', ascending=False)`), then keep the
countries with `count >= min_players`. -/
def country_stats (view : List Row) (min_players : Int) : List CountryStat :=
  (sortDescBy CountryStat.count
      ((groupsOf Row.country view).map (statsFor view))).filter
    (fun s => decide (min_players ≤ (s.count : Int)))

/-- Deviations from the mean of a column. -/
def meanDevs (l : List ℚ) : List ℚ :=
  l.map (fun x => x - meanQ l)

/-- Sum of products of deviations: `sProd x x` is pandas' `ssqdmx`,
`sProd x y` its `covxy` accumulator (the `nobs - 1` factors of the pandas
divisor cancel in the quotient). -/
def sProd (xs ys : List ℚ) : ℚ :=
  (List.zipWith (fun a b => a * b) (meanDevs xs) (meanDevs ys)).sum

/-- One Pearson entry of `DataFrame.corr()` (line 159) in exact arithmetic:
pandas computes `covxy / ((nobs-1) * sqrt(ssqdmx/(nobs-1) * ssqdmy/(nobs-1)))`
and writes NaN when the divisor is 0 (fewer than two rows, or a constant
column).  NaN is `none`; a finite entry `sxy / √(sxx·syy)` is represented by
the exact pair `(sxy, sxx*syy)`, read into `ℝ` by `pearsonVal`. -/
def corrEntry (xs ys : List ℚ) : Option (ℚ × ℚ) :=
  if sProd xs xs * sProd ys ys = 0 then none
  else some (sProd xs ys, sProd xs xs * sProd ys ys)

/-- The real number an entry representation stands for: `p.1 / √p.2`. -/
noncomputable def pearsonVal (p : ℚ × ℚ) : ℝ :=
  (p.1 : ℝ) / Real.sqrt (p.2 : ℝ)

/-- The values of one selected column over the view
(`filtered_df[selected_corr_skills]`, line 159). -/
def colVals (view : List Row) (c : Col) : List ℚ :=
  view.map (fun r => r.get c)

/-- The correlation matrix `filtered_df[selected_corr_skills].corr()`
(line 159), indexed by positions in the selected column list. -/
def corr (view : List Row) (cols : List Col) (i j : Fin cols.length) :
    Option (ℚ × ℚ) :=
  corrEntry (colVals view (cols.get i)) (colVals view (cols.get j))

/-- The correlation tab's guard (line 157): the matrix is computed whenever
`len(selected_corr_skills) >= 2`, whatever the rows of the view; otherwise
the warning branch (`none`) is taken. -/
def tab5 (view : List Row) (cols : List Col) :
    Option (Fin cols.length → Fin cols.length → Option (ℚ × ℚ)) :=
  if 2 ≤ cols.length then some (corr view cols) else none

/-- A column with two different values (the negation is a constant column,
for which Pearson is undefined). -/
def nonConstant (l : List ℚ) : Prop :=
  ∃ a ∈ l, ∃ b ∈ l, a ≠ b

instance (l : List ℚ) : Decidable (nonConstant l) := by
  unfold nonConstant
  infer_instance

/-- Modelled from the spec: the `st.cache_data` decorator on `load_data`
(lines 15-17) lives in the host framework, not in `src/`; the spec (§4.1,
§5, §8) describes it as a per-process cache: the first call performs the
actual read, later calls return the cached Dataset without re-reading.
`readCount` is the spec's load-count probe. -/
structure LoaderState where
  cache : Option (List Row)
  readCount : Nat
deriving DecidableEq

/-- Modelled from the spec: `load_data()` under `st.cache_data` — return the
cached Dataset if present, otherwise read the file (here: the abstract file
contents `file`), count the read, and cache the result. -/
def load_data (file : List Row) (s : LoaderState) : List Row × LoaderState :=
  match s.cache with
  | some d => (d, s)
  | none => (file, ⟨some file, s.readCount + 1⟩)

/-- The loader state at process start: nothing cached, nothing read. -/
def initState : LoaderState :=
  ⟨none, 0⟩

/-- The five-row fixture of spec §8: positions OH, OH, MB, S, L and ages
20, 25, 30, 22, 28 (countries and skill scores chosen concretely). -/
def exampleDf : List Row :=
  [⟨"A", "BRA", "OH", 20, 50, 10, 1, 1, 1, 1⟩,
   ⟨"B", "BRA", "OH", 25, 60, 11, 1, 1, 1, 1⟩,
   ⟨"C", "USA", "MB", 30, 55, 12, 1, 1, 1, 1⟩,
   ⟨"D", "POL", "S", 22, 40, 9, 1, 1, 1, 1⟩,
   ⟨"E", "USA", "L", 28, 45, 8, 1, 1, 1, 1⟩]

theorem mem_uniqueAux [DecidableEq α] (l : List α) :
    ∀ (seen : List α) (b : α), b ∈ uniqueAux seen l ↔ b ∈ l ∧ b ∉ seen := by
  induction l with
  | nil =>
    intro seen b
    simp [uniqueAux]
  | cons a l ih =>
    intro seen b
    by_cases ha : a ∈ seen
    · simp only [uniqueAux, if_pos ha, ih, List.mem_cons]
      constructor
      · rintro ⟨hbl, hbs⟩
        exact ⟨Or.inr hbl, hbs⟩
      · rintro ⟨hba | hbl, hbs⟩
        · exact absurd (hba ▸ ha) hbs
        · exact ⟨hbl, hbs⟩
    · simp only [uniqueAux, if_neg ha, List.mem_cons, ih]
      by_cases hba : b = a
      · subst hba
        simp [ha]
      · simp [hba]

theorem mem_unique [DecidableEq α] (l : List α) (b : α) :
    b ∈ unique l ↔ b ∈ l := by
  rw [unique, mem_uniqueAux]
  simp

theorem foldl_min_le_init (l : List Int) : ∀ z : Int, l.foldl min z ≤ z := by
  induction l with
  | nil => intro z; exact le_refl z
  | cons y ys ih => intro z; exact le_trans (ih (min z y)) (min_le_left z y)

theorem foldl_min_le (l : List Int) : ∀ z a : Int, a ∈ l → l.foldl min z ≤ a := by
  induction l with
  | nil =>
    intro z a h
    cases h
  | cons y ys ih =>
    intro z a h
    rcases List.mem_cons.mp h with rfl | h
    · exact le_trans (foldl_min_le_init ys (min z a)) (min_le_right z a)
    · exact ih (min z y) a h

theorem colMin_le (l : List Int) (a : Int) (h : a ∈ l) : colMin l ≤ a := by
  cases l with
  | nil => cases h
  | cons x t =>
    rcases List.mem_cons.mp h with rfl | h
    · exact foldl_min_le_init t a
    · exact foldl_min_le t x a h

theorem init_le_foldl_max (l : List Int) : ∀ z : Int, z ≤ l.foldl max z := by
  induction l with
  | nil => intro z; exact le_refl z
  | cons y ys ih => intro z; exact le_trans (le_max_left z y) (ih (max z y))

theorem le_foldl_max (l : List Int) : ∀ z a : Int, a ∈ l → a ≤ l.foldl max z := by
  induction l with
  | nil =>
    intro z a h
    cases h
  | cons y ys ih =>
    intro z a h
    rcases List.mem_cons.mp h with rfl | h
    · exact le_trans (le_max_right z a) (init_le_foldl_max ys (max z a))
    · exact ih (max z y) a h

theorem le_colMax (l : List Int) (a : Int) (h : a ∈ l) : a ≤ colMax l := by
  cases l with
  | nil => cases h
  | cons x t =>
    rcases List.mem_cons.mp h with rfl | h
    · exact init_le_foldl_max t a
    · exact le_foldl_max t x a h

/-- C1: a row is in the FilteredView iff its position is in the selected
set and its age lies inclusively between the bounds; the FilteredView is a
(pointwise, order-preserving) sub-list of the Dataset, so its size never
exceeds the Dataset's. -/
theorem C1_filter_membership (df : List Row) (positions : List String)
    (lo hi : Int) :
    (∀ r : Row, r ∈ filtered_df df positions lo hi ↔
      r ∈ df ∧ r.position ∈ positions ∧ lo ≤ r.age ∧ r.age ≤ hi) ∧
    List.Sublist (filtered_df df positions lo hi) df ∧
    (filtered_df df positions lo hi).length ≤ df.length := by
  refine ⟨fun r => ?_, List.filter_sublist _, List.length_filter_le _ _⟩
  simp [filtered_df, List.mem_filter]

/-- C1 at a concrete input: the FilteredView of the fixture is a sub-list
of the fixture. -/
theorem C1_witness : List.Sublist (filtered_df exampleDf ["OH"] 18 26) exampleDf :=
  (C1_filter_membership exampleDf ["OH"] 18 26).2.1

/-- C5: with the filter in its default state — the position options
`df['Position'].unique()` (lines 31-32) and the age slider at the Dataset's
own min/max (lines 37-39) — the FilteredView is the whole Dataset. -/
theorem C5_default_filter_full (df : List Row) :
    filtered_df df (unique (df.map Row.position)) (colMin (df.map Row.age))
      (colMax (df.map Row.age)) = df := by
  rw [filtered_df, List.filter_eq_self]
  intro r hr
  simp only [decide_eq_true_eq]
  exact ⟨(mem_unique _ _).mpr (List.mem_map_of_mem _ hr),
    colMin_le _ _ (List.mem_map_of_mem _ hr),
    le_colMax _ _ (List.mem_map_of_mem _ hr)⟩

/-- C6: the first loader call reads the file (read count 0 → 1) and caches
it; the second call returns a value-identical Dataset and leaves the state
untouched — in particular the read count stays 1, so no duplicate read
happens. -/
theorem C6_loader_idempotent (file : List Row) :
    (load_data file initState).1 = file ∧
    (load_data file initState).2.readCount = 1 ∧
    (load_data file (load_data file initState).2).1 =
      (load_data file initState).1 ∧
    (load_data file (load_data file initState).2).2 =
      (load_data file initState).2 := by
  simp [load_data, initState]

/-- C7: an empty selected-position set makes the filter predicate false on
every row, so the FilteredView is empty — no error, just no rows. -/
theorem C7_empty_positions (df : List Row) (lo hi : Int) :
    filtered_df df [] lo hi = [] := by
  simp [filtered_df]

theorem insertOrd_perm (r : α → α → Bool) (x : α) (l : List α) :
    List.Perm (insertOrd r x l) (x :: l) := by
  induction l with
  | nil => exact List.Perm.refl _
  | cons y ys ih =>
    by_cases h : r x y = true
    · simp [insertOrd, h]
    · simp only [insertOrd, if_neg h]
      exact List.Perm.trans (List.Perm.cons y ih) (List.Perm.swap x y ys)

theorem sortOrd_perm (r : α → α → Bool) (l : List α) :
    List.Perm (sortOrd r l) l := by
  induction l with
  | nil => exact List.Perm.refl _
  | cons x xs ih =>
    exact List.Perm.trans (insertOrd_perm r x (sortOrd r xs)) (List.Perm.cons x ih)

theorem insertOrd_pairwise (r : α → α → Bool)
    (total : ∀ a b, r a b = true ∨ r b a = true)
    (rtrans : ∀ a b c, r a b = true → r b c = true → r a c = true)
    (x : α) (l : List α) (h : l.Pairwise (fun a b => r a b = true)) :
    (insertOrd r x l).Pairwise (fun a b => r a b = true) := by
  induction l with
  | nil => simp [insertOrd]
  | cons y ys ih =>
    rcases List.pairwise_cons.mp h with ⟨hy, hys⟩
    by_cases hxy : r x y = true
    · simp only [insertOrd, if_pos hxy]
      refine List.pairwise_cons.mpr ⟨?_, h⟩
      intro z hz
      rcases List.mem_cons.mp hz with rfl | hz
      · exact hxy
      · exact rtrans x y z hxy (hy z hz)
    · simp only [insertOrd, if_neg hxy]
      refine List.pairwise_cons.mpr ⟨?_, ih hys⟩
      intro z hz
      have hz2 : z ∈ x :: ys := (insertOrd_perm r x ys).mem_iff.mp hz
      rcases List.mem_cons.mp hz2 with rfl | hz2
      · exact (total y z).resolve_right hxy
      · exact hy z hz2

theorem sortOrd_pairwise (r : α → α → Bool)
    (total : ∀ a b, r a b = true ∨ r b a = true)
    (rtrans : ∀ a b c, r a b = true → r b c = true → r a c = true)
    (l : List α) : (sortOrd r l).Pairwise (fun a b => r a b = true) := by
  induction l with
  | nil => simp [sortOrd]
  | cons x xs ih => exact insertOrd_pairwise r total rtrans x _ ih

theorem filter_insertOrd (r : α → α → Bool) (p : α → Bool)
    (compat : ∀ a b, p a = true → r a b = false → p b = false)
    (x : α) (l : List α) :
    (insertOrd r x l).filter p =
      if p x then x :: l.filter p else l.filter p := by
  induction l with
  | nil => simp [insertOrd, List.filter_cons]
  | cons y ys ih =>
    by_cases hxy : r x y = true
    · simp only [insertOrd, if_pos hxy]
      rw [List.filter_cons]
    · have hf : r x y = false := Bool.not_eq_true _ ▸ hxy
      simp only [insertOrd, if_neg hxy]
      rw [List.filter_cons, List.filter_cons, ih]
      by_cases hpx : p x = true
      · have hpy : p y = false := compat x y hpx hf
        simp [hpx, hpy]
      · have hpx' : p x = false := Bool.not_eq_true _ ▸ hpx
        simp [hpx']

theorem filter_sortOrd (r : α → α → Bool) (p : α → Bool)
    (compat : ∀ a b, p a = true → r a b = false → p b = false)
    (l : List α) : (sortOrd r l).filter p = l.filter p := by
  induction l with
  | nil => rfl
  | cons x xs ih =>
    rw [sortOrd, filter_insertOrd r p compat, ih, List.filter_cons]

theorem sortDescBy_perm [LinearOrder β] (key : α → β) (l : List α) :
    List.Perm (sortDescBy key l) l :=
  sortOrd_perm _ l

theorem sortDescBy_pairwise [LinearOrder β] (key : α → β) (l : List α) :
    (sortDescBy key l).Pairwise (fun a b => key b ≤ key a) := by
  have h := sortOrd_pairwise (fun a b : α => decide (key b ≤ key a))
    (fun a b => ?_) (fun a b c hab hbc => ?_) l
  · exact h.imp (fun hab => of_decide_eq_true hab)
  · rcases le_total (key b) (key a) with h | h
    · exact Or.inl (decide_eq_true h)
    · exact Or.inr (decide_eq_true h)
  · exact decide_eq_true (le_trans (of_decide_eq_true hbc) (of_decide_eq_true hab))

theorem sortDescBy_filter_key [LinearOrder β] (key : α → β) (v : β)
    (l : List α) :
    (sortDescBy key l).filter (fun a => decide (key a = v)) =
      l.filter (fun a => decide (key a = v)) := by
  refine filter_sortOrd _ _ ?_ l
  intro a b hpa hr
  have ha : key a = v := of_decide_eq_true hpa
  have hb : ¬key b ≤ key a := of_decide_eq_false hr
  exact decide_eq_false (fun h : key b = v => hb (le_of_eq (h.trans ha.symm)))

/-- C2: `top_attack` returns the `n` rows of greatest Attack — empty when
`n ≤ 0`, `min n (number of rows)` rows in general, all rows (as a
permutation) when the view has at most `n` rows — in descending Attack
order, every returned row's Attack at least that of every row left out, and
stably: rows of equal Attack keep their original relative order (the
returned rows of any Attack value `v` are a prefix of the view's rows of
value `v`, in view order). -/
theorem C2_top_attack (df : List Row) (n : Int) :
    (n ≤ 0 → top_attack df n = []) ∧
    (top_attack df n).length = min n.toNat df.length ∧
    ((df.length : Int) ≤ n → List.Perm (top_attack df n) df) ∧
    (top_attack df n).Pairwise (fun a b => b.attack ≤ a.attack) ∧
    (∀ r ∈ top_attack df n, ∀ s ∈ (sortDescBy Row.attack df).drop n.toNat,
      s.attack ≤ r.attack) ∧
    (∀ v : ℚ, List.IsPrefix
      ((top_attack df n).filter (fun r => decide (r.attack = v)))
      (df.filter (fun r => decide (r.attack = v)))) := by
  have hperm := sortDescBy_perm Row.attack df
  have hpair := sortDescBy_pairwise Row.attack df
  refine ⟨?_, ?_, ?_, ?_, ?_, ?_⟩
  · intro hn
    rw [top_attack, Int.toNat_of_nonpos hn, List.take_zero]
  · rw [top_attack, List.length_take, hperm.length_eq]
  · intro hn
    have hlen : df.length ≤ n.toNat := by omega
    rw [top_attack, List.take_of_length_le (by rw [hperm.length_eq]; exact hlen)]
    exact hperm
  · exact List.Pairwise.sublist (List.take_sublist _ _) hpair
  · intro r hr s hs
    have hp2 : ((sortDescBy Row.attack df).take n.toNat ++
        (sortDescBy Row.attack df).drop n.toNat).Pairwise
        (fun a b => b.attack ≤ a.attack) := by
      rw [List.take_append_drop]
      exact hpair
    exact (List.pairwise_append.mp hp2).2.2 r hr s hs
  · intro v
    have h1 : List.IsPrefix (top_attack df n) (sortDescBy Row.attack df) :=
      List.take_prefix _ _
    have h2 := h1.filter (fun r => decide (r.attack = v))
    rw [sortDescBy_filter_key Row.attack v df] at h2
    exact h2

/-- C2 at concrete inputs: a negative `n` on the fixture yields no rows,
and `n = 10` on the 5-row fixture returns all 5 rows. -/
theorem C2_witness :
    top_attack exampleDf (-3) = [] ∧
    List.Perm (top_attack exampleDf 10) exampleDf :=
  ⟨(C2_top_attack exampleDf (-3)).1 (by decide),
   (C2_top_attack exampleDf 10).2.2.1 (by decide)⟩

/-- C9: `position_counts` is ordered by descending count, every entry's
count is the number of rows of that position, the mapped positions are
exactly those occurring in the view, the empty view gives the empty
mapping, and on the 5-row fixture it is OH:2, MB:1, S:1, L:1. -/
theorem C9_position_counts (view : List Row) :
    (position_counts view).Pairwise (fun a b => b.2 ≤ a.2) ∧
    (∀ pc ∈ position_counts view,
      pc.2 = (view.map Row.position).count pc.1) ∧
    (∀ p : String, p ∈ (position_counts view).map Prod.fst ↔
      p ∈ view.map Row.position) ∧
    position_counts [] = [] ∧
    position_counts exampleDf = [("OH", 2), ("MB", 1), ("S", 1), ("L", 1)] := by
  have hperm : List.Perm (position_counts view)
      ((unique (view.map Row.position)).map
        (fun p => (p, (view.map Row.position).count p))) :=
    sortDescBy_perm Prod.snd _
  refine ⟨sortDescBy_pairwise Prod.snd _, ?_, ?_, rfl, by decide⟩
  · intro pc hpc
    rcases List.mem_map.mp (hperm.mem_iff.mp hpc) with ⟨q, _, hpq⟩
    rw [← hpq]
  · intro p
    constructor
    · intro hp
      rcases List.mem_map.mp hp with ⟨pc, hpc, rfl⟩
      rcases List.mem_map.mp (hperm.mem_iff.mp hpc) with ⟨q, hq, rfl⟩
      exact (mem_unique _ _).mp hq
    · intro hp
      have hq : p ∈ unique (view.map Row.position) := (mem_unique _ _).mpr hp
      have h2 := hperm.mem_iff.mpr
        (List.mem_map_of_mem (fun p => (p, (view.map Row.position).count p)) hq)
      exact List.mem_map_of_mem Prod.fst h2

theorem mem_groupsOf (key : Row → String) (view : List Row) (c : String) :
    c ∈ groupsOf key view ↔ c ∈ view.map key := by
  rw [groupsOf, sortAscBy, (sortOrd_perm _ _).mem_iff]
  exact mem_unique _ _

/-- C4: every row of `country_stats` meets the threshold and carries that
country's true count and Attack/Block/Age means; rows are ordered by
descending count; a country appears iff it occurs in the view with at least
`min_players` rows (so `min_players = 1` keeps every country present), and
a threshold above every country's count empties the table. -/
theorem C4_country_stats (view : List Row) (m : Int) :
    (∀ s ∈ country_stats view m,
      m ≤ (s.count : Int) ∧
      s.count = (view.filter (fun r => decide (r.country = s.country))).length ∧
      s.meanAttack = meanQ ((view.filter
        (fun r => decide (r.country = s.country))).map Row.attack) ∧
      s.meanBlock = meanQ ((view.filter
        (fun r => decide (r.country = s.country))).map Row.block) ∧
      s.meanAge = meanQ ((view.filter
        (fun r => decide (r.country = s.country))).map (fun r => (r.age : ℚ)))) ∧
    (country_stats view m).Pairwise (fun a b => b.count ≤ a.count) ∧
    (∀ c : String, c ∈ (country_stats view m).map CountryStat.country ↔
      c ∈ view.map Row.country ∧
      m ≤ ((view.filter (fun r => decide (r.country = c))).length : Int)) ∧
    (m = 1 → ∀ c ∈ view.map Row.country,
      c ∈ (country_stats view m).map CountryStat.country) ∧
    ((∀ c ∈ view.map Row.country,
      ((view.filter (fun r => decide (r.country = c))).length : Int) < m) →
      country_stats view m = []) := by
  have hmem : ∀ s : CountryStat, s ∈ country_stats view m ↔
      (∃ c ∈ groupsOf Row.country view, statsFor view c = s) ∧
      m ≤ (s.count : Int) := by
    intro s
    rw [country_stats, List.mem_filter,
      (sortDescBy_perm CountryStat.count _).mem_iff, List.mem_map]
    simp only [decide_eq_true_eq]
  have hiff : ∀ c : String,
      c ∈ (country_stats view m).map CountryStat.country ↔
      c ∈ view.map Row.country ∧
      m ≤ ((view.filter (fun r => decide (r.country = c))).length : Int) := by
    intro c
    constructor
    · intro hc
      rcases List.mem_map.mp hc with ⟨s, hs, rfl⟩
      rcases (hmem s).mp hs with ⟨⟨c2, hc2, rfl⟩, hm⟩
      exact ⟨(mem_groupsOf _ _ _).mp hc2, hm⟩
    · rintro ⟨hc, hm⟩
      have hs : statsFor view c ∈ country_stats view m :=
        (hmem _).mpr ⟨⟨c, (mem_groupsOf _ _ _).mpr hc, rfl⟩, hm⟩
      exact List.mem_map_of_mem CountryStat.country hs
  refine ⟨?_, ?_, hiff, ?_, ?_⟩
  · intro s hs
    rcases (hmem s).mp hs with ⟨⟨c, _, rfl⟩, hm⟩
    exact ⟨hm, rfl, rfl, rfl, rfl⟩
  · exact List.Pairwise.filter _ (sortDescBy_pairwise CountryStat.count _)
  · rintro rfl c hc
    rcases List.mem_map.mp hc with ⟨r, hr, rfl⟩
    refine (hiff _).mpr ⟨hc, ?_⟩
    have hrf : r ∈ view.filter (fun r2 => decide (r2.country = r.country)) :=
      List.mem_filter.mpr ⟨hr, decide_eq_true rfl⟩
    have hpos := List.length_pos_of_mem hrf
    omega
  · intro hall
    rw [country_stats, List.filter_eq_nil_iff]
    intro s hs
    rcases List.mem_map.mp
      ((sortDescBy_perm CountryStat.count _).mem_iff.mp hs) with ⟨c, hc, rfl⟩
    intro hdec
    exact absurd (of_decide_eq_true hdec)
      (not_le.mpr (hall c ((mem_groupsOf _ _ _).mp hc)))

/-- C4 at concrete inputs: threshold 100 empties the fixture's country
table, while threshold 1 keeps country BRA, which is present. -/
theorem C4_witness :
    country_stats exampleDf 100 = [] ∧
    "BRA" ∈ (country_stats exampleDf 1).map CountryStat.country :=
  ⟨(C4_country_stats exampleDf 100).2.2.2.2 (by decide),
   (C4_country_stats exampleDf 1).2.2.2.1 rfl "BRA" (by decide)⟩

/-- C8: for a non-empty skill selection, the Skills-by-Position table's
columns are exactly the positions occurring in the view (a position with
zero rows is absent), its rows are the selected skills with one mean per
position column, and every position column's row group is non-empty — so
no mean of zero elements is ever formed. -/
theorem C8_position_skills (view : List Row) (skills : List Col)
    (_hskills : skills ≠ []) :
    (∀ p : String, p ∈ (position_skills view skills).1 ↔
      p ∈ view.map Row.position) ∧
    (∀ p ∈ (position_skills view skills).1,
      view.filter (fun r => decide (r.position = p)) ≠ []) ∧
    (position_skills view skills).2.map Prod.fst = skills ∧
    (∀ row ∈ (position_skills view skills).2,
      row.2.length = (position_skills view skills).1.length) := by
  refine ⟨fun p => mem_groupsOf Row.position view p, ?_, ?_, ?_⟩
  · intro p hp
    rcases List.mem_map.mp ((mem_groupsOf Row.position view p).mp hp) with
      ⟨r, hr, rfl⟩
    intro he
    have hrf : r ∈ view.filter (fun r2 => decide (r2.position = r.position)) :=
      List.mem_filter.mpr ⟨hr, decide_eq_true rfl⟩
    rw [he] at hrf
    cases hrf
  · rw [position_skills]
    simp only [List.map_map]
    show skills.map (fun s => s) = skills
    simp
  · intro row hrow
    rcases List.mem_map.mp hrow with ⟨s, _, rfl⟩
    simp [position_skills]

/-- C8 at a concrete input: with the single selected skill Attack on the
fixture, OH is one of the table's position columns since the fixture has
OH rows. -/
theorem C8_witness :
    "OH" ∈ (position_skills exampleDf [Col.attack]).1 ↔
      "OH" ∈ exampleDf.map Row.position :=
  (C8_position_skills exampleDf [Col.attack] (by decide)).1 "OH"

theorem zipWith_self (f : ℚ → ℚ → ℚ) (l : List ℚ) :
    List.zipWith f l l = l.map (fun x => f x x) := by
  induction l with
  | nil => rfl
  | cons x xs ih => simp [List.zipWith, ih]

theorem zipWith_mul_comm (l1 l2 : List ℚ) :
    List.zipWith (fun a b => a * b) l1 l2 =
      List.zipWith (fun a b => a * b) l2 l1 := by
  induction l1 generalizing l2 with
  | nil => cases l2 <;> rfl
  | cons x xs ih =>
    cases l2 with
    | nil => rfl
    | cons y ys => simp [List.zipWith, ih, mul_comm]

theorem sProd_comm (xs ys : List ℚ) : sProd xs ys = sProd ys xs := by
  rw [sProd, sProd, zipWith_mul_comm]

theorem sProd_self (xs : List ℚ) :
    sProd xs xs = ((meanDevs xs).map (fun d => d * d)).sum := by
  rw [sProd, zipWith_self]

theorem sum_nonneg_of_nonneg (l : List ℚ) (h : ∀ x ∈ l, 0 ≤ x) :
    0 ≤ l.sum := by
  induction l with
  | nil => simp
  | cons x xs ih =>
    rw [List.sum_cons]
    exact add_nonneg (h x (List.mem_cons_self x xs))
      (ih fun y hy => h y (List.mem_cons_of_mem x hy))

theorem eq_zero_of_sum_nonneg_zero (l : List ℚ) (h : ∀ x ∈ l, 0 ≤ x)
    (hz : l.sum = 0) : ∀ x ∈ l, x = 0 := by
  induction l with
  | nil =>
    intro x hx
    cases hx
  | cons y ys ih =>
    rw [List.sum_cons] at hz
    have hy := h y (List.mem_cons_self y ys)
    have hys : ∀ x ∈ ys, 0 ≤ x := fun x hx => h x (List.mem_cons_of_mem y hx)
    have hsum := sum_nonneg_of_nonneg ys hys
    intro x hx
    rcases List.mem_cons.mp hx with rfl | hx
    · linarith
    · exact ih hys (by linarith) x hx

theorem sProd_self_nonneg (xs : List ℚ) : 0 ≤ sProd xs xs := by
  rw [sProd_self]
  refine sum_nonneg_of_nonneg _ ?_
  intro x hx
  rcases List.mem_map.mp hx with ⟨d, _, rfl⟩
  exact mul_self_nonneg d

theorem sProd_self_eq_zero (xs : List ℚ) (h : sProd xs xs = 0) :
    ∀ a ∈ xs, a = meanQ xs := by
  intro a ha
  have hdev : ∀ d ∈ (meanDevs xs).map (fun d => d * d), d = 0 := by
    refine eq_zero_of_sum_nonneg_zero _ ?_ ?_
    · intro x hx
      rcases List.mem_map.mp hx with ⟨d, _, rfl⟩
      exact mul_self_nonneg d
    · rw [← sProd_self]
      exact h
  have hd : (a - meanQ xs) * (a - meanQ xs) = 0 :=
    hdev _ (List.mem_map_of_mem _
      (List.mem_map_of_mem (fun x => x - meanQ xs) ha))
  have := mul_self_eq_zero.mp hd
  linarith

theorem sProd_self_pos (xs : List ℚ) (h : nonConstant xs) :
    0 < sProd xs xs := by
  rcases lt_or_eq_of_le (sProd_self_nonneg xs) with hlt | heq
  · exact hlt
  · exfalso
    rcases h with ⟨a, ha, b, hb, hab⟩
    exact hab ((sProd_self_eq_zero xs heq.symm a ha).trans
      (sProd_self_eq_zero xs heq.symm b hb).symm)

theorem sum_of_const (xs : List ℚ) (a : ℚ) (h : ∀ x ∈ xs, x = a) :
    xs.sum = (xs.length : ℚ) * a := by
  induction xs with
  | nil => simp
  | cons y ys ih =>
    rw [List.sum_cons, ih (fun x hx => h x (List.mem_cons_of_mem y hx)),
      h y (List.mem_cons_self y ys), List.length_cons]
    push_cast
    ring

theorem sProd_self_of_const (xs : List ℚ) (h : ¬nonConstant xs) :
    sProd xs xs = 0 := by
  have hconst : ∀ a ∈ xs, ∀ b ∈ xs, a = b := by
    intro a ha b hb
    by_contra hne
    exact h ⟨a, ha, b, hb, hne⟩
  rw [sProd_self]
  refine List.sum_eq_zero ?_
  intro x hx
  rcases List.mem_map.mp hx with ⟨d, hd, rfl⟩
  rcases List.mem_map.mp hd with ⟨a, ha, rfl⟩
  have hmean : meanQ xs = a := by
    have hne : (xs.length : ℚ) ≠ 0 :=
      Nat.cast_ne_zero.mpr (Nat.pos_iff_ne_zero.mp (List.length_pos_of_mem ha))
    rw [meanQ, sum_of_const xs a (fun x hx2 => hconst x hx2 a ha),
      mul_comm, mul_div_assoc, div_self hne, mul_one]
  rw [hmean]
  ring

theorem not_nonConstant_of_short (l : List ℚ) (h : l.length ≤ 1) :
    ¬nonConstant l := by
  rintro ⟨a, ha, b, hb, hab⟩
  cases l with
  | nil => cases ha
  | cons x xs =>
    cases xs with
    | nil =>
      rcases List.mem_singleton.mp ha with rfl
      exact hab (List.mem_singleton.mp hb).symm
    | cons y ys => simp at h

/-- C3: with at least two selected columns the correlation matrix is
symmetric — `M[i][j]` and `M[j][i]` are the same entry, representation
included — and the diagonal entry of every non-constant selected column
reads exactly 1. -/
theorem C3_corr_symm_diag (view : List Row) (cols : List Col)
    (_h2 : 2 ≤ cols.length) (i j : Fin cols.length) :
    corr view cols i j = corr view cols j i ∧
    (nonConstant (colVals view (cols.get i)) →
      (corr view cols i i).map pearsonVal = some 1) := by
  constructor
  · rw [corr, corr, corrEntry, corrEntry,
      sProd_comm (colVals view (cols.get j)) (colVals view (cols.get i)),
      mul_comm (sProd (colVals view (cols.get j)) (colVals view (cols.get j)))]
  · intro hnc
    have hpos := sProd_self_pos _ hnc
    have hne : sProd (colVals view (cols.get i)) (colVals view (cols.get i)) *
        sProd (colVals view (cols.get i)) (colVals view (cols.get i)) ≠ 0 :=
      mul_ne_zero (ne_of_gt hpos) (ne_of_gt hpos)
    rw [corr, corrEntry, if_neg hne, Option.map_some']
    have hcast : (0 : ℝ) <
        (sProd (colVals view (cols.get i)) (colVals view (cols.get i)) : ℝ) := by
      exact_mod_cast hpos
    rw [pearsonVal]
    push_cast
    rw [Real.sqrt_mul_self (le_of_lt hcast), div_self (ne_of_gt hcast)]

/-- C3 at a concrete input: on the fixture with selected columns
[Attack, Block], `M[0][1] = M[1][0]` and the Attack diagonal entry reads 1
(the fixture's Attack column is non-constant). -/
theorem C3_witness :
    corr exampleDf [Col.attack, Col.block] ⟨0, by decide⟩ ⟨1, by decide⟩ =
      corr exampleDf [Col.attack, Col.block] ⟨1, by decide⟩ ⟨0, by decide⟩ ∧
    (corr exampleDf [Col.attack, Col.block] ⟨0, by decide⟩
      ⟨0, by decide⟩).map pearsonVal = some 1 := by
  have h := C3_corr_symm_diag exampleDf [Col.attack, Col.block] (by decide)
    ⟨0, by decide⟩ ⟨1, by decide⟩
  exact ⟨h.1, h.2 (by decide)⟩

/-- C10: the correlation tab's only guard is the two-column check — with at
least 2 selected columns the matrix is produced whatever the view's rows
(no InsufficientData branch is taken); with fewer than 2 rows every entry
is NaN (`none`), and every entry in the row or column of a constant column
is NaN — all computed totally, never raising. -/
theorem C10_corr_nan (view : List Row) (cols : List Col) :
    (2 ≤ cols.length → tab5 view cols = some (corr view cols)) ∧
    (view.length ≤ 1 → ∀ i j : Fin cols.length, corr view cols i j = none) ∧
    (∀ i j : Fin cols.length, ¬nonConstant (colVals view (cols.get i)) →
      corr view cols i j = none ∧ corr view cols j i = none) := by
  refine ⟨fun h2 => ?_, fun hshort i j => ?_, fun i j hconst => ?_⟩
  · rw [tab5, if_pos h2]
  · have hlen : (colVals view (cols.get i)).length ≤ 1 := by
      rw [colVals, List.length_map]
      exact hshort
    have hz := sProd_self_of_const _ (not_nonConstant_of_short _ hlen)
    rw [corr, corrEntry, if_pos (by rw [hz, zero_mul])]
  · have hz := sProd_self_of_const _ hconst
    exact ⟨by rw [corr, corrEntry, if_pos (by rw [hz, zero_mul])],
      by rw [corr, corrEntry, if_pos (by rw [hz, mul_zero])]⟩

/-- C10 at a concrete input: on a one-row view the two-column guard still
passes and the off-diagonal entry is NaN. -/
theorem C10_witness :
    tab5 [⟨"A", "BRA", "OH", 20, 50, 10, 1, 1, 1, 1⟩]
      [Col.attack, Col.block] =
      some (corr [⟨"A", "BRA", "OH", 20, 50, 10, 1, 1, 1, 1⟩]
        [Col.attack, Col.block]) ∧
    corr [⟨"A", "BRA", "OH", 20, 50, 10, 1, 1, 1, 1⟩] [Col.attack, Col.block]
      ⟨0, by decide⟩ ⟨1, by decide⟩ = none := by
  have h := C10_corr_nan [⟨"A", "BRA", "OH", 20, 50, 10, 1, 1, 1, 1⟩]
    [Col.attack, Col.block]
  exact ⟨h.1 (by decide), h.2.1 (by decide) _ _⟩

end EDA
